/-
Verification of the connectivity-analysis core of `app.py` (Milano isochrone app).

The development shallowly embeds the algorithmic core of the application:

* `egoNodes` embeds the bounded traversal performed by the call
  `nx.ego_graph(G, center_node, radius=max_dist, distance='length')` in
  `calculate_isochrone` (app.py line 81).  networkx's `ego_graph` with a
  `distance` keyword runs `single_source_dijkstra(G, n, cutoff=radius,
  weight=distance)` and keeps the nodes of the resulting distance map: a
  lazy-deletion Dijkstra where, before pushing a relaxation `dist[v] + cost`,
  the algorithm skips it when it exceeds the cutoff (`if vu_dist > cutoff:
  continue`) or when the target is already settled.  The embedding mirrors
  that loop: a fringe list in push order (heapq's insertion counter makes
  ties pop in push order, which `popMin` reproduces by taking the first
  occurrence of the minimum), a settled association list `dist`, and the
  cutoff test on every relaxation.  networkx's `seen` dictionary only
  suppresses pushes that can never settle (a push-count optimisation); it is
  omitted here, as is the negative-weight `ValueError`, since all theorems
  about the traversal assume the data-model invariant of non-negative costs.
  For a multigraph networkx relaxes the minimum over parallel edges; here
  every parallel edge is relaxed individually, which settles the same nodes.
* `calcIsochroneBody` / `calculate_isochrone` embed app.py lines 77-88,
  with the CRS projections supplied by an `Env` of fallible oracles and the
  `graph_to_gdfs` failure on an edgeless subgraph made explicit.
* `scoresLoop` / `calculate_connectivity_scores` embed the per-zone loop of
  app.py lines 96-112, with per-zone exceptions modelled by a `failAt`
  oracle and the outer `from_features` failure by a `parseFail` oracle.
* `punteggioNorm` embeds the pandas normalisation of app.py line 236,
  with float division modelled by `PFloat` (0/0 is NaN, x/0 is inf).
* `cachedCall` embeds `st.cache_data` memoisation: the key is the tuple of
  hashed arguments, and streamlit excludes every parameter whose name starts
  with an underscore, so `calculate_connectivity_scores` is keyed on
  `max_distance` alone while `get_amenities` is keyed on `(place, tags)`.
-/
import Mathlib

set_option maxHeartbeats 1000000

namespace MilanoApp

/-! ## Graph model -/

/-- A directed edge of the street network with its `length` attribute.
osmnx graphs are `MultiDiGraph`s: parallel edges are permitted and are kept
as separate list entries. -/
structure Edge where
  src : Nat
  dst : Nat
  cost : ℚ
deriving DecidableEq, Repr

/-- A point in the working coordinate system. -/
abbrev Pt := ℚ × ℚ

/-- The street network: nodes with coordinates, and directed weighted edges. -/
structure Graph where
  nodes : List (Nat × Pt)
  edges : List Edge
deriving DecidableEq, Repr

/-! ## Bounded Dijkstra (the `nx.ego_graph` call of app.py line 81) -/

/-- The settled distance map, in settlement order (a python dict preserves
insertion order). -/
abbrev DistMap := List (Nat × ℚ)

/-- The priority fringe, kept in push order; `popMin` extracts the first
occurrence of the minimal key, reproducing heapq's counter tie-break. -/
abbrev Fringe := List (ℚ × Nat)

/-- Association-list lookup of a settled node. -/
def lookupD (v : Nat) : DistMap → Option ℚ
  | [] => none
  | (u, d) :: rest => if v = u then some d else lookupD v rest

/-- Remove the first occurrence of the minimal-priority entry. -/
def popMin : Fringe → Option ((ℚ × Nat) × Fringe)
  | [] => none
  | x :: xs =>
    match popMin xs with
    | none => some (x, [])
    | some (y, ys) => if x.1 ≤ y.1 then some (x, xs) else some (y, x :: ys)

/-- The relaxations pushed when node `v` is settled at distance `d`:
one per outgoing edge, skipped when the new distance exceeds the cutoff
(`if vu_dist > cutoff: continue`) or the target is already settled. -/
def relaxations (G : Graph) (dist : DistMap) (b : ℚ) (v : Nat) (d : ℚ) : Fringe :=
  (G.edges.filter (fun e => e.src == v)).filterMap
    (fun e => if d + e.cost ≤ b ∧ (lookupD e.dst dist).isNone = true
              then some (d + e.cost, e.dst) else none)

/-- The main loop of networkx's `_dijkstra`: pop the minimal fringe entry,
discard it if its node is settled, otherwise settle the node and push the
within-cutoff relaxations of its outgoing edges. -/
def dijkstraLoop (G : Graph) (b : ℚ) : Nat → DistMap → Fringe → DistMap × Fringe
  | 0, dist, fringe => (dist, fringe)
  | fuel + 1, dist, fringe =>
    match popMin fringe with
    | none => (dist, fringe)
    | some ((d, v), rest) =>
      match lookupD v dist with
      | some _ => dijkstraLoop G b fuel dist rest
      | none =>
        dijkstraLoop G b fuel (dist ++ [(v, d)])
          (rest ++ relaxations G (dist ++ [(v, d)]) b v d)

/-- Every node that can ever appear on the fringe: the source and the edge
targets. -/
def candKeys (G : Graph) (src : Nat) : List Nat :=
  (src :: G.edges.map Edge.dst).dedup

/-- Number of outgoing edges of a node. -/
def outDeg (G : Graph) (v : Nat) : Nat :=
  (G.edges.filter (fun e => e.src == v)).length

/-- Total out-degree of the candidate nodes not yet settled: an upper bound
on the pushes still possible. -/
def pendWeight (G : Graph) (src : Nat) (dist : DistMap) : Nat :=
  (((candKeys G src).filter (fun w => (lookupD w dist).isNone)).map
    (fun w => outDeg G w)).sum

/-- A decreasing measure of the loop state, hence a sufficient fuel. -/
def phiM (G : Graph) (src : Nat) (dist : DistMap) (fringe : Fringe) : Nat :=
  fringe.length + pendWeight G src dist

/-- Fuel that is provably enough for the loop to drain its fringe. -/
def egoFuel (G : Graph) (src : Nat) : Nat :=
  phiM G src [] [(0, src)]

/-- The settled distance map of the bounded traversal. -/
def egoDist (G : Graph) (src : Nat) (b : ℚ) : DistMap :=
  (dijkstraLoop G b (egoFuel G src) [] [(0, src)]).1

/-- The node set of `nx.ego_graph(G, src, radius=b, distance='length')`,
in settlement order. -/
def egoNodes (G : Graph) (src : Nat) (b : ℚ) : List Nat :=
  (egoDist G src b).map Prod.fst

/-! ## Paths (the specification side of the traversal) -/

/-- A walk of the graph from `src`, given by its edge list. -/
inductive ValidPath (G : Graph) (src : Nat) : Nat → List Edge → Prop
  | nil : ValidPath G src src []
  | snoc {u : Nat} {es : List Edge} {e : Edge} :
      ValidPath G src u es → e ∈ G.edges → e.src = u → ValidPath G src e.dst (es ++ [e])

/-- Cumulative cost of a walk. -/
def pathCost (es : List Edge) : ℚ :=
  (es.map Edge.cost).sum

/-- The node `v` has some path from `src` of cumulative cost at most `b`;
equivalently (for a finite graph) its shortest-path distance is at most `b`. -/
def ReachWithin (G : Graph) (src : Nat) (v : Nat) (b : ℚ) : Prop :=
  ∃ es, ValidPath G src v es ∧ pathCost es ≤ b

/-! ## Geometry (shapely `convex_hull` and `intersects` on point features) -/

/-- Cross product of `oa` and `ob`: zero exactly when `o`, `a`, `b` are
collinear. -/
def cross (o a b : Pt) : ℚ :=
  (a.1 - o.1) * (b.2 - o.2) - (a.2 - o.2) * (b.1 - o.1)

/-- Squared Euclidean distance (used for the nearest-node lookup). -/
def dist2 (p q : Pt) : ℚ :=
  (p.1 - q.1) * (p.1 - q.1) + (p.2 - q.2) * (p.2 - q.2)

/-- Lexicographic comparison of points. -/
def lexLe (p q : Pt) : Bool :=
  decide (p.1 < q.1) || (decide (p.1 = q.1) && decide (p.2 ≤ q.2))

/-- Insertion step of the lexicographic sort. -/
def insertPt (p : Pt) : List Pt → List Pt
  | [] => [p]
  | q :: qs => if lexLe p q then p :: q :: qs else q :: insertPt p qs

/-- Lexicographic insertion sort of a point list. -/
def sortPts : List Pt → List Pt
  | [] => []
  | p :: ps => insertPt p (sortPts ps)

/-- The geometry kinds `unary_union(...).convex_hull` can produce: GEOS
returns an empty geometry for no points, a `Point` for one, a `LineString`
for a collinear set and a `Polygon` otherwise. -/
inductive Geom
  | empty
  | point (p : Pt)
  | segment (a b : Pt)
  | polygon (vs : List Pt)
deriving DecidableEq, Repr

/-- Pop step of Andrew's monotone chain (the accumulator is kept reversed,
head = most recent hull vertex). -/
def chainPush (p : Pt) : List Pt → List Pt
  | b :: a :: rest =>
    if cross a b p ≤ 0 then chainPush p (a :: rest) else p :: b :: a :: rest
  | acc => p :: acc

/-- Andrew's monotone chain on a lexicographically sorted, duplicate-free
point list, producing the hull ring counter-clockwise. -/
def monotoneChain (qs : List Pt) : List Pt :=
  let lower := qs.foldl (fun acc p => chainPush p acc) []
  let upper := qs.reverse.foldl (fun acc p => chainPush p acc) []
  lower.reverse.dropLast ++ upper.reverse.dropLast

/-- Convex hull of a point set, with the degenerate kinds GEOS produces:
empty input gives the empty geometry, one point a `Point`, a collinear set
the `LineString` between its lexicographic extremes, otherwise a `Polygon`. -/
def convexHullPts (ps : List Pt) : Geom :=
  match sortPts ps.dedup with
  | [] => .empty
  | [p] => .point p
  | [p, q] => .segment p q
  | p :: q :: rs =>
    if rs.all (fun c => decide (cross p q c = 0)) then
      .segment p ((q :: rs).getLastD q)
    else
      .polygon (monotoneChain (p :: q :: rs))

/-- Closed point-on-segment test (collinear and inside the bounding box). -/
def onSegment (p a b : Pt) : Bool :=
  decide (cross a b p = 0) &&
    decide (min a.1 b.1 ≤ p.1) && decide (p.1 ≤ max a.1 b.1) &&
    decide (min a.2 b.2 ≤ p.2) && decide (p.2 ≤ max a.2 b.2)

/-- Closed point-in-convex-polygon test: the point is on or to the left of
every directed boundary edge of the counter-clockwise ring. -/
def inConvexPoly (p : Pt) (vs : List Pt) : Bool :=
  match vs with
  | [] => false
  | v0 :: _ => (vs.zip (vs.drop 1 ++ [v0])).all (fun ab => decide (0 ≤ cross ab.1 ab.2 p))

/-- shapely's `intersects` between a point feature and the isochrone
geometry: closed containment, so a point exactly on a degenerate point or
segment geometry does intersect it. -/
def ptIntersects (p : Pt) (g : Geom) : Bool :=
  match g with
  | .empty => false
  | .point q => decide (p = q)
  | .segment a b => onSegment p a b
  | .polygon vs => inConvexPoly p vs

/-! ## `calculate_isochrone` (app.py lines 77-88) -/

/-- The fallible external collaborators of `calculate_isochrone`: the two
`ox.projection.project_geometry` calls (either can raise a projection
error). -/
structure Env where
  projFwd : Pt → Except String Pt
  projBack : Geom → Except String Geom

/-- `ox.nearest_nodes`: the node minimising the Euclidean distance to the
query point (first such node in node order on ties); raises on an empty
graph. -/
def nearestNode (G : Graph) (p : Pt) : Except String Nat :=
  match G.nodes with
  | [] => .error "graph has no nodes"
  | n0 :: rest =>
    .ok (rest.foldl (fun best nc => if dist2 nc.2 p < dist2 best.2 p then nc else best) n0).1

/-- The body of `calculate_isochrone` (the `try` block of app.py lines
78-85): project the centre point, find its nearest node, take the bounded
traversal, fail like `ox.graph_to_gdfs` does when the induced subgraph has
no edges, build the convex hull of the reached node coordinates and project
it back.  Every failure is an `Except.error`. -/
def calcIsochroneBody (env : Env) (G : Graph) (center : Pt) (maxDist : ℚ) :
    Except String Geom :=
  match env.projFwd center with
  | .error e => .error e
  | .ok cp =>
    match nearestNode G cp with
    | .error e => .error e
    | .ok cn =>
      let sn := egoNodes G cn maxDist
      if (G.edges.filter (fun e => decide (e.src ∈ sn) && decide (e.dst ∈ sn))).isEmpty then
        .error "graph contains no edges"
      else
        env.projBack (convexHullPts ((G.nodes.filter (fun nc => decide (nc.1 ∈ sn))).map Prod.snd))

/-- `calculate_isochrone`: the catch-all `except` maps every failure of the
body to `None`. -/
def calculate_isochrone (env : Env) (G : Graph) (center : Pt) (maxDist : ℚ) :
    Option Geom :=
  match calcIsochroneBody env G center maxDist with
  | .ok g => some g
  | .error _ => none

/-! ## `calculate_connectivity_scores` (app.py lines 90-115) -/

/-- `len(poi[poi.intersects(isochrone)])` for a computed isochrone, and `0`
when `calculate_isochrone` returned `None` (app.py lines 102-106). -/
def countPOIs (iso : Option Geom) (pois : List Pt) : Nat :=
  match iso with
  | some g => (pois.filter (fun p => ptIntersects p g)).length
  | none => 0

/-- One zone's raw score: the POIs inside its centroid's isochrone.  A zone
is represented by its centroid point (`row.geometry.centroid`). -/
def zoneScore (env : Env) (G : Graph) (pois : List Pt) (maxDist : ℚ) (z : Pt) : Nat :=
  countPOIs (calculate_isochrone env G z maxDist) pois

/-- The body of one iteration of the scoring loop: the per-zone
`try`/`except` maps any exception raised while scoring zone number `n`
(modelled by the `failAt` oracle, e.g. a `poi.intersects` failure) to a raw
score of `0`. -/
def zoneResult (env : Env) (G : Graph) (pois : List Pt) (maxDist : ℚ)
    (failAt : Nat → Option String) (n : Nat) (z : Pt) : Nat :=
  match failAt n with
  | some _ => 0
  | none => zoneScore env G pois maxDist z

/-- The `for idx, row in quartieri.iterrows()` loop, appending one score per
zone in zone order. -/
def scoresLoop (env : Env) (G : Graph) (pois : List Pt) (maxDist : ℚ)
    (failAt : Nat → Option String) : Nat → List Pt → List Nat
  | _, [] => []
  | n, z :: zs =>
    zoneResult env G pois maxDist failAt n z :: scoresLoop env G pois maxDist failAt (n + 1) zs

/-- `calculate_connectivity_scores`: the outer `try` (the
`GeoDataFrame.from_features` parsing, modelled by the `parseFail` oracle)
maps a shared-setup failure to `None`; otherwise the per-zone loop runs to
completion. -/
def calculate_connectivity_scores (env : Env) (G : Graph) (zones : List Pt)
    (pois : List Pt) (maxDist : ℚ) (failAt : Nat → Option String)
    (parseFail : Option String) : Option (List Nat) :=
  match parseFail with
  | some _ => none
  | none => some (scoresLoop env G pois maxDist failAt 0 zones)

/-! ## Normalisation (app.py line 236) -/

/-- The values float64 division can produce: `0/0` is NaN, `x/0` with
`x ≠ 0` is a signed infinity, otherwise a finite value. -/
inductive PFloat
  | nan
  | inf
  | val (q : ℚ)
deriving DecidableEq, Repr

/-- pandas elementwise division of number series. -/
def pdDiv (a b : ℚ) : PFloat :=
  if b = 0 then (if a = 0 then .nan else .inf) else .val (a / b)

/-- `Series.max` of a non-empty series of non-negative integers. -/
def seriesMaxNat (xs : List Nat) : Nat :=
  xs.foldr max 0

/-- `quartieri['punteggio_norm'] = quartieri['connettività'] /
quartieri['connettività'].max()` (app.py line 236). -/
def punteggioNorm (scores : List Nat) : List PFloat :=
  scores.map (fun (x : Nat) => pdDiv (x : ℚ) ((seriesMaxNat scores : ℚ)))

/-! ## `st.cache_data` (app.py lines 52 and 90) -/

/-- Association-list lookup for the cache store. -/
def lookupA {κ ν : Type} [DecidableEq κ] (k : κ) : List (κ × ν) → Option ν
  | [] => none
  | (k', v) :: rest => if k = k' then some v else lookupA k rest

/-- `st.cache_data` memoisation: derive the key from the call's arguments,
return the stored value on a hit, otherwise compute, store and return.  The
returned boolean records whether the computation ran. -/
def cachedCall {α κ ν : Type} [DecidableEq κ] (keyOf : α → κ) (f : α → ν)
    (cache : List (κ × ν)) (a : α) : ν × List (κ × ν) × Bool :=
  match lookupA (keyOf a) cache with
  | some v => (v, cache, false)
  | none => (f a, (keyOf a, f a) :: cache, true)

/-- The arguments of `calculate_connectivity_scores` at its call site
(app.py line 233). -/
structure ScoresArgs where
  quartieriJson : List Pt
  poiJson : List Pt
  g : Graph
  maxDistance : ℚ
deriving DecidableEq

/-- The `st.cache_data` key of `calculate_connectivity_scores`: streamlit
hashes only the parameters whose name does not start with an underscore, and
`_quartieri_json`, `_poi_json` and `_G` all do (app.py line 91), so the key
is `max_distance` alone. -/
def scoresCacheKey (a : ScoresArgs) : ℚ :=
  a.maxDistance

/-- The arguments of `get_amenities` (app.py line 53). -/
structure AmenArgs where
  place : String
  tags : List String
deriving DecidableEq

/-- The `st.cache_data` key of `get_amenities`: no parameter is
underscore-prefixed, so both are hashed. -/
def amenitiesCacheKey (a : AmenArgs) : String × List String :=
  (a.place, a.tags)

/-! ## Concrete instances used by the witnesses and counterexamples -/

/-- The spec's 4-node line graph: ids 0-3 on a line, consecutive edge costs
1, 2, 1 in both directions. -/
def lineG : Graph :=
  ⟨[(0, (0, 0)), (1, (1, 0)), (2, (3, 0)), (3, (4, 0))],
   [⟨0, 1, 1⟩, ⟨1, 0, 1⟩, ⟨1, 2, 2⟩, ⟨2, 1, 2⟩, ⟨2, 3, 1⟩, ⟨3, 2, 1⟩]⟩

/-- A two-node graph with one zero-cost edge. -/
def zeroCostG : Graph :=
  ⟨[(0, (0, 0)), (1, (1, 0))], [⟨0, 1, 0⟩]⟩

/-- A two-node collinear graph (both directions, cost 2): its isochrones are
degenerate segments. -/
def segG : Graph :=
  ⟨[(0, (0, 0)), (1, (2, 0))], [⟨0, 1, 2⟩, ⟨1, 0, 2⟩]⟩

/-- Projections that succeed and change nothing (a single working CRS). -/
def trivEnv : Env :=
  ⟨fun p => .ok p, fun g => .ok g⟩

/-- The quiet per-zone exception oracle. -/
def noFail : Nat → Option String :=
  fun _ => none

/-- An oracle making exactly the first zone's scoring raise. -/
def failOracle : Nat → Option String :=
  fun n => if n = 0 then some "err" else none

/-- The computation the scores cache memoises (with the failure oracles
quiet). -/
def scoresCompute (a : ScoresArgs) : Option (List Nat) :=
  calculate_connectivity_scores trivEnv a.g a.quartieriJson a.poiJson a.maxDistance
    (fun _ => none) none

/-- Cache-counterexample call one: empty POI collection. -/
def argsNoPoi : ScoresArgs :=
  ⟨[(0, 0)], [], segG, 5⟩

/-- Cache-counterexample call two: same graph, zones and budget — hence the
same cache key — but a different service selection, with a POI on the
isochrone. -/
def argsWithPoi : ScoresArgs :=
  ⟨[(0, 0)], [(1, 0)], segG, 5⟩

/-- The zero-area geometry kinds (empty, point, segment) a degenerate
reachable set can hull into. -/
def zeroAreaGeom : Geom → Prop
  | .empty => True
  | .point _ => True
  | .segment _ _ => True
  | .polygon _ => False

/-! ## Invariant of the bounded Dijkstra loop -/

/-- Loop invariant of `dijkstraLoop`, following the standard Dijkstra
argument restricted to within-budget paths: every settled or fringed entry
is the cost of an actual path; settled keys are distinct; settled values
under-approximate every within-budget path; the source is settled or still
carries its initial fringe entry; every within-budget relaxation out of a
settled node is settled or on the fringe; and fringe nodes come from the
candidate pool. -/
structure DijkInv (G : Graph) (src : Nat) (b : ℚ) (dist : DistMap) (fringe : Fringe) : Prop where
  sound_dist : ∀ v d, (v, d) ∈ dist →
    ∃ es, ValidPath G src v es ∧ pathCost es = d ∧ (d ≤ b ∨ (v = src ∧ d = 0))
  sound_fringe : ∀ d v, (d, v) ∈ fringe →
    ∃ es, ValidPath G src v es ∧ pathCost es = d ∧ (d ≤ b ∨ (v = src ∧ d = 0))
  nodup_keys : (dist.map Prod.fst).Nodup
  min_dist : ∀ v d, (v, d) ∈ dist → ∀ es, ValidPath G src v es → pathCost es ≤ b →
    d ≤ pathCost es
  src_cover : (∃ d, (src, d) ∈ dist) ∨ (0, src) ∈ fringe
  edge_cover : ∀ u du, (u, du) ∈ dist → ∀ e, e ∈ G.edges → e.src = u → du + e.cost ≤ b →
    (∃ d', (e.dst, d') ∈ dist) ∨ (du + e.cost, e.dst) ∈ fringe
  fringe_cand : ∀ d v, (d, v) ∈ fringe → v ∈ candKeys G src

/-! ## Lemmas: association lookup -/

theorem lookupD_eq_some_mem {v : Nat} {d : ℚ} :
    ∀ {l : DistMap}, lookupD v l = some d → (v, d) ∈ l := by
  intro l h
  induction l with
  | nil => simp [lookupD] at h
  | cons p rest ih =>
    obtain ⟨u, d'⟩ := p
    simp only [lookupD] at h
    by_cases hv : v = u
    · rw [if_pos hv] at h
      injection h with h
      subst hv; subst h
      exact List.mem_cons_self _ _
    · rw [if_neg hv] at h
      exact List.mem_cons_of_mem _ (ih h)

theorem lookupD_eq_none_iff {v : Nat} {l : DistMap} :
    lookupD v l = none ↔ ∀ d, (v, d) ∉ l := by
  induction l with
  | nil => simp [lookupD]
  | cons p rest ih =>
    obtain ⟨u, d'⟩ := p
    simp only [lookupD]
    by_cases hv : v = u
    · subst hv
      rw [if_pos rfl]
      constructor
      · intro h; simp at h
      · intro h; exact absurd (List.mem_cons_self _ _) (h d')
    · rw [if_neg hv]
      rw [ih]
      constructor
      · intro h d hd
        rcases List.mem_cons.mp hd with hd | hd
        · exact hv (congrArg Prod.fst hd)
        · exact h d hd
      · intro h d hd
        exact h d (List.mem_cons_of_mem _ hd)

theorem mem_keys_iff {v : Nat} {l : DistMap} :
    v ∈ l.map Prod.fst ↔ ∃ d, (v, d) ∈ l := by
  constructor
  · intro h
    rcases List.mem_map.mp h with ⟨⟨u, d⟩, hm, he⟩
    exact ⟨d, by simpa [← he] using hm⟩
  · rintro ⟨d, hd⟩
    exact List.mem_map.mpr ⟨(v, d), hd, rfl⟩

theorem lookupD_append_of_none {v : Nat} {l l' : DistMap} (h : lookupD v l = none) :
    lookupD v (l ++ l') = lookupD v l' := by
  induction l with
  | nil => simp
  | cons p rest ih =>
    obtain ⟨u, d'⟩ := p
    by_cases hv : v = u
    · subst hv; simp [lookupD] at h
    · simp only [lookupD, if_neg hv] at h
      simpa [lookupD, if_neg hv] using ih h

theorem lookupD_append_of_some {v : Nat} {d : ℚ} {l l' : DistMap}
    (h : lookupD v l = some d) : lookupD v (l ++ l') = some d := by
  induction l with
  | nil => simp [lookupD] at h
  | cons p rest ih =>
    obtain ⟨u, d'⟩ := p
    by_cases hv : v = u
    · subst hv
      simp only [lookupD, if_pos rfl] at h ⊢
      exact h
    · simp only [lookupD, if_neg hv] at h ⊢
      exact ih h

theorem lookupD_singleton_self {v : Nat} {d : ℚ} : lookupD v [(v, d)] = some d := by
  simp [lookupD]

theorem lookupD_singleton_ne {v w : Nat} {d : ℚ} (h : v ≠ w) :
    lookupD v [(w, d)] = none := by
  simp [lookupD, h]

/-! ## Lemmas: minimum extraction -/

theorem popMin_eq_none_iff {l : Fringe} : popMin l = none ↔ l = [] := by
  cases l with
  | nil => simp [popMin]
  | cons x xs =>
    simp only [popMin]
    constructor
    · intro h
      split at h
      · simp at h
      · split at h <;> simp at h
    · intro h; simp at h

theorem popMin_perm {l : Fringe} {x : ℚ × Nat} {rest : Fringe}
    (h : popMin l = some (x, rest)) : l.Perm (x :: rest) := by
  induction l generalizing x rest with
  | nil => simp [popMin] at h
  | cons a as ih =>
    simp only [popMin] at h
    split at h
    · rename_i ha
      injection h with h1
      injection h1 with h2 h3
      subst h2; subst h3
      rw [popMin_eq_none_iff.mp ha]
    · rename_i y ys ha
      split at h
      · injection h with h1
        injection h1 with h2 h3
        subst h2; subst h3
        exact List.Perm.refl _
      · injection h with h1
        injection h1 with h2 h3
        subst h2; subst h3
        exact (List.Perm.cons a (ih ha)).trans (List.Perm.swap _ _ _)

theorem popMin_min {l : Fringe} {x : ℚ × Nat} {rest : Fringe}
    (h : popMin l = some (x, rest)) : ∀ y ∈ l, x.1 ≤ y.1 := by
  induction l generalizing x rest with
  | nil => simp [popMin] at h
  | cons a as ih =>
    simp only [popMin] at h
    split at h
    · rename_i ha
      injection h with h1
      injection h1 with h2 h3
      subst h2
      intro y hy
      rcases List.mem_cons.mp hy with hy | hy
      · subst hy; exact le_refl _
      · rw [popMin_eq_none_iff.mp ha] at hy; simp at hy
    · rename_i y' ys ha
      have hmin := @ih y' ys ha
      split at h
      · rename_i hle
        injection h with h1
        injection h1 with h2 h3
        subst h2
        intro y hy
        rcases List.mem_cons.mp hy with hy | hy
        · subst hy; exact le_refl _
        · exact le_trans hle (hmin y hy)
      · rename_i hle
        injection h with h1
        injection h1 with h2 h3
        subst h2
        intro y hy
        rcases List.mem_cons.mp hy with hy | hy
        · subst hy; exact le_of_lt (lt_of_not_le hle)
        · exact hmin y hy

/-! ## Lemmas: paths -/

theorem pathCost_nil : pathCost [] = 0 := rfl

theorem pathCost_snoc {es : List Edge} {e : Edge} :
    pathCost (es ++ [e]) = pathCost es + e.cost := by
  simp [pathCost]

theorem ValidPath.edges_subset {G : Graph} {src v : Nat} {es : List Edge}
    (h : ValidPath G src v es) : ∀ e ∈ es, e ∈ G.edges := by
  induction h with
  | nil => intro e he; cases he
  | snoc hp he hsrc ih =>
    intro e' he'
    rcases List.mem_append.mp he' with h' | h'
    · exact ih e' h'
    · rcases List.mem_singleton.mp h' with rfl
      exact he

theorem pathCost_nonneg {G : Graph} {src v : Nat} {es : List Edge}
    (Hn : ∀ e ∈ G.edges, 0 ≤ e.cost) (h : ValidPath G src v es) : 0 ≤ pathCost es := by
  induction h with
  | nil => simp [pathCost]
  | snoc hp he hsrc ih =>
    rw [pathCost_snoc]
    exact add_nonneg ih (Hn _ he)

theorem pathCost_pos_of_ne_nil {G : Graph} {src v : Nat} {es : List Edge}
    (Hp : ∀ e ∈ G.edges, 0 < e.cost) (h : ValidPath G src v es) (hne : es ≠ []) :
    0 < pathCost es := by
  induction h with
  | nil => exact absurd rfl hne
  | snoc hp he hsrc ih =>
    rw [pathCost_snoc]
    have h1 : 0 ≤ pathCost _ :=
      pathCost_nonneg (fun e he => le_of_lt (Hp e he)) hp
    exact add_pos_of_nonneg_of_pos h1 (Hp _ he)

/-! ## Lemmas: relaxations -/

theorem mem_relaxations {G : Graph} {dist : DistMap} {b : ℚ} {v : Nat} {d : ℚ}
    {x : ℚ × Nat} :
    x ∈ relaxations G dist b v d ↔
      ∃ e ∈ G.edges, e.src = v ∧ d + e.cost ≤ b ∧ lookupD e.dst dist = none ∧
        x = (d + e.cost, e.dst) := by
  simp only [relaxations, List.mem_filterMap, List.mem_filter]
  constructor
  · rintro ⟨e, ⟨he, hsrc⟩, hx⟩
    by_cases hc : d + e.cost ≤ b ∧ (lookupD e.dst dist).isNone = true
    · rw [if_pos hc] at hx
      injection hx with hx
      exact ⟨e, he, by simpa using hsrc, hc.1, Option.isNone_iff_eq_none.mp hc.2, hx.symm⟩
    · rw [if_neg hc] at hx; cases hx
  · rintro ⟨e, he, hsrc, hb, hnone, rfl⟩
    refine ⟨e, ⟨he, by simpa using hsrc⟩, ?_⟩
    rw [if_pos ⟨hb, Option.isNone_iff_eq_none.mpr hnone⟩]

theorem relaxations_length_le {G : Graph} {dist : DistMap} {b : ℚ} {v : Nat} {d : ℚ} :
    (relaxations G dist b v d).length ≤ outDeg G v :=
  List.length_filterMap_le _ _

theorem mem_candKeys_src {G : Graph} {src : Nat} : src ∈ candKeys G src := by
  simp [candKeys, List.mem_dedup]

theorem mem_candKeys_dst {G : Graph} {src : Nat} {e : Edge} (he : e ∈ G.edges) :
    e.dst ∈ candKeys G src := by
  simp only [candKeys, List.mem_dedup, List.mem_cons, List.mem_map]
  exact Or.inr ⟨e, he, rfl⟩

/-! ## Invariant: initialisation and preservation -/

theorem dijkInv_init (G : Graph) (src : Nat) (b : ℚ) :
    DijkInv G src b [] [(0, src)] where
  sound_dist := by intro v d h; simp at h
  sound_fringe := by
    intro d v h
    simp only [List.mem_singleton, Prod.mk.injEq] at h
    obtain ⟨rfl, rfl⟩ := h
    exact ⟨[], ValidPath.nil, rfl, Or.inr ⟨rfl, rfl⟩⟩
  nodup_keys := by simp
  min_dist := by intro v d h; simp at h
  src_cover := Or.inr (by simp)
  edge_cover := by intro u du h; simp at h
  fringe_cand := by
    intro d v h
    simp only [List.mem_singleton, Prod.mk.injEq] at h
    obtain ⟨rfl, rfl⟩ := h
    exact mem_candKeys_src

/-- Any within-budget path ends at a settled node with an at-most-as-small
settled value, or crosses the fringe at an entry with an at-most-as-small
key (the Dijkstra cut argument, cutoff-aware). -/
theorem dijk_cover {G : Graph} {src : Nat} {b : ℚ} {dist : DistMap} {fringe : Fringe}
    (Hn : ∀ e ∈ G.edges, 0 ≤ e.cost) (inv : DijkInv G src b dist fringe) :
    ∀ w es, ValidPath G src w es → pathCost es ≤ b →
      (∃ dw, (w, dw) ∈ dist ∧ dw ≤ pathCost es) ∨
        (∃ dx x, (dx, x) ∈ fringe ∧ dx ≤ pathCost es) := by
  intro w es hp
  induction hp with
  | nil =>
    intro hb
    rcases inv.src_cover with ⟨ds, hds⟩ | hf
    · exact Or.inl ⟨ds, hds, inv.min_dist _ _ hds [] ValidPath.nil hb⟩
    · exact Or.inr ⟨0, src, hf, by simp [pathCost]⟩
  | @snoc u es' e hp' he hsrc ih =>
    intro hb
    have hce : (0 : ℚ) ≤ e.cost := Hn e he
    have hbsnoc : pathCost es' + e.cost ≤ b := by rwa [pathCost_snoc] at hb
    have hb' : pathCost es' ≤ b := by linarith
    rcases ih hb' with ⟨du, hdu, hdule⟩ | ⟨dx, x, hx, hxle⟩
    · have hble : du + e.cost ≤ b := by linarith
      rcases inv.edge_cover u du hdu e he hsrc hble with ⟨d', hd'⟩ | hfr
      · refine Or.inl ⟨d', hd', ?_⟩
        exact inv.min_dist _ _ hd' (es' ++ [e]) (ValidPath.snoc hp' he hsrc) hb
      · refine Or.inr ⟨du + e.cost, e.dst, hfr, ?_⟩
        rw [pathCost_snoc]
        linarith
    · refine Or.inr ⟨dx, x, hx, ?_⟩
      rw [pathCost_snoc]
      linarith

theorem dijk_step_discard {G : Graph} {src : Nat} {b : ℚ} {dist : DistMap}
    {fringe rest : Fringe} {d : ℚ} {v : Nat} {d0 : ℚ}
    (inv : DijkInv G src b dist fringe)
    (hpop : popMin fringe = some ((d, v), rest))
    (hlk : lookupD v dist = some d0) :
    DijkInv G src b dist rest := by
  have hperm := popMin_perm hpop
  have hrest_sub : ∀ y ∈ rest, y ∈ fringe := fun y hy =>
    hperm.mem_iff.mpr (List.mem_cons_of_mem _ hy)
  have hvd0 : (v, d0) ∈ dist := lookupD_eq_some_mem hlk
  refine ⟨inv.sound_dist, ?_, inv.nodup_keys, inv.min_dist, ?_, ?_, ?_⟩
  · intro dx x hx
    exact inv.sound_fringe dx x (hrest_sub _ hx)
  · rcases inv.src_cover with ⟨ds, hds⟩ | hf
    · exact Or.inl ⟨ds, hds⟩
    · rcases List.mem_cons.mp (hperm.mem_iff.mp hf) with heq | hmem
      · have hv : v = src := (congrArg Prod.snd heq).symm
        exact Or.inl ⟨d0, hv ▸ hvd0⟩
      · exact Or.inr hmem
  · intro u du hdu e he hsrc hble
    rcases inv.edge_cover u du hdu e he hsrc hble with ⟨d', hd'⟩ | hfr
    · exact Or.inl ⟨d', hd'⟩
    · rcases List.mem_cons.mp (hperm.mem_iff.mp hfr) with heq | hmem
      · have hdst : e.dst = v := congrArg Prod.snd heq
        exact Or.inl ⟨d0, hdst ▸ hvd0⟩
      · exact Or.inr hmem
  · intro dx x hx
    exact inv.fringe_cand dx x (hrest_sub _ hx)

theorem dijk_step_finalize {G : Graph} {src : Nat} {b : ℚ} {dist : DistMap}
    {fringe rest : Fringe} {d : ℚ} {v : Nat}
    (Hn : ∀ e ∈ G.edges, 0 ≤ e.cost)
    (inv : DijkInv G src b dist fringe)
    (hpop : popMin fringe = some ((d, v), rest))
    (hlk : lookupD v dist = none) :
    DijkInv G src b (dist ++ [(v, d)])
      (rest ++ relaxations G (dist ++ [(v, d)]) b v d) := by
  have hperm := popMin_perm hpop
  have hmemf : (d, v) ∈ fringe := hperm.mem_iff.mpr (List.mem_cons_self _ _)
  have hrest_sub : ∀ y ∈ rest, y ∈ fringe := fun y hy =>
    hperm.mem_iff.mpr (List.mem_cons_of_mem _ hy)
  have hvnot : ∀ d', (v, d') ∉ dist := lookupD_eq_none_iff.mp hlk
  obtain ⟨es0, hp0, hcost0, hbd0⟩ := inv.sound_fringe d v hmemf
  refine ⟨?_, ?_, ?_, ?_, ?_, ?_, ?_⟩
  · -- sound_dist
    intro w dw hmem
    rcases List.mem_append.mp hmem with hmem | hmem
    · exact inv.sound_dist w dw hmem
    · rcases List.mem_singleton.mp hmem with heq
      have h1 : w = v := congrArg Prod.fst heq
      have h2 : dw = d := congrArg Prod.snd heq
      rw [h1, h2]
      exact ⟨es0, hp0, hcost0, hbd0⟩
  · -- sound_fringe
    intro dx x hx
    rcases List.mem_append.mp hx with hx | hx
    · exact inv.sound_fringe dx x (hrest_sub _ hx)
    · rcases mem_relaxations.mp hx with ⟨e, he, hsrc, hble, _, heq⟩
      have h1 : dx = d + e.cost := congrArg Prod.fst heq
      have h2 : x = e.dst := congrArg Prod.snd heq
      rw [h1, h2]
      refine ⟨es0 ++ [e], ValidPath.snoc hp0 he hsrc, ?_, Or.inl hble⟩
      rw [pathCost_snoc, hcost0]
  · -- nodup_keys
    rw [List.map_append]
    rw [List.nodup_append]
    refine ⟨inv.nodup_keys, by simp, ?_⟩
    intro a ha ha'
    simp only [List.map_cons, List.map_nil, List.mem_singleton] at ha'
    subst ha'
    rcases mem_keys_iff.mp ha with ⟨d', hd'⟩
    exact hvnot d' hd'
  · -- min_dist
    intro w dw hmem es hpath hble
    rcases List.mem_append.mp hmem with hmem | hmem
    · exact inv.min_dist w dw hmem es hpath hble
    · rcases List.mem_singleton.mp hmem with heq
      have h1 : w = v := congrArg Prod.fst heq
      have h2 : dw = d := congrArg Prod.snd heq
      rw [h2]
      rcases dijk_cover Hn inv w es hpath hble with ⟨dw', hdw', _⟩ | ⟨dx, x, hx, hxle⟩
      · rw [h1] at hdw'
        exact absurd hdw' (hvnot dw')
      · exact le_trans (popMin_min hpop (dx, x) hx) hxle
  · -- src_cover
    rcases inv.src_cover with ⟨ds, hds⟩ | hf
    · exact Or.inl ⟨ds, List.mem_append_left _ hds⟩
    · rcases List.mem_cons.mp (hperm.mem_iff.mp hf) with heq | hmem
      · have hv : v = src := (congrArg Prod.snd heq).symm
        refine Or.inl ⟨d, ?_⟩
        rw [← hv]
        exact List.mem_append_right _ (List.mem_singleton.mpr rfl)
      · exact Or.inr (List.mem_append_left _ hmem)
  · -- edge_cover
    intro u du hdu e he hsrc hble
    rcases List.mem_append.mp hdu with hdu | hdu
    · rcases inv.edge_cover u du hdu e he hsrc hble with ⟨d', hd'⟩ | hfr
      · exact Or.inl ⟨d', List.mem_append_left _ hd'⟩
      · rcases List.mem_cons.mp (hperm.mem_iff.mp hfr) with heq | hmem
        · have hdst : e.dst = v := congrArg Prod.snd heq
          refine Or.inl ⟨d, ?_⟩
          rw [hdst]
          exact List.mem_append_right _ (List.mem_singleton.mpr rfl)
        · exact Or.inr (List.mem_append_left _ hmem)
    · rcases List.mem_singleton.mp hdu with heq
      have h1 : u = v := congrArg Prod.fst heq
      have h2 : du = d := congrArg Prod.snd heq
      rw [h1] at hsrc
      rw [h2] at hble ⊢
      cases hdst : lookupD e.dst (dist ++ [(v, d)]) with
      | some dd => exact Or.inl ⟨dd, lookupD_eq_some_mem hdst⟩
      | none =>
        refine Or.inr (List.mem_append_right _ ?_)
        exact mem_relaxations.mpr ⟨e, he, hsrc, hble, hdst, rfl⟩
  · -- fringe_cand
    intro dx x hx
    rcases List.mem_append.mp hx with hx | hx
    · exact inv.fringe_cand dx x (hrest_sub _ hx)
    · rcases mem_relaxations.mp hx with ⟨e, he, _, _, _, heq⟩
      have : x = e.dst := congrArg Prod.snd heq
      rw [this]
      exact mem_candKeys_dst he

theorem dijkstraLoop_preserves {G : Graph} {src : Nat} {b : ℚ}
    (Hn : ∀ e ∈ G.edges, 0 ≤ e.cost) :
    ∀ fuel dist fringe, DijkInv G src b dist fringe →
      DijkInv G src b (dijkstraLoop G b fuel dist fringe).1
        (dijkstraLoop G b fuel dist fringe).2 := by
  intro fuel
  induction fuel with
  | zero => intro dist fringe inv; simpa [dijkstraLoop] using inv
  | succ n ih =>
    intro dist fringe inv
    cases hpop : popMin fringe with
    | none => simpa [dijkstraLoop, hpop] using inv
    | some p =>
      obtain ⟨⟨d, v⟩, rest⟩ := p
      cases hlk : lookupD v dist with
      | some d0 =>
        simp only [dijkstraLoop, hpop, hlk]
        exact ih _ _ (dijk_step_discard inv hpop hlk)
      | none =>
        simp only [dijkstraLoop, hpop, hlk]
        exact ih _ _ (dijk_step_finalize Hn inv hpop hlk)

/-! ## Fuel sufficiency -/

theorem filter_sum_settle {l : List Nat} (hn : l.Nodup) {v : Nat} (hv : v ∈ l)
    (f g : Nat → Bool) (w : Nat → Nat)
    (hfv : f v = true) (hgv : g v = false) (hfg : ∀ x ∈ l, x ≠ v → f x = g x) :
    ((l.filter f).map w).sum = w v + ((l.filter g).map w).sum := by
  induction l with
  | nil => cases hv
  | cons a as ih =>
    have hnd := List.nodup_cons.mp hn
    rcases List.mem_cons.mp hv with rfl | hv'
    · have hfilter : as.filter f = as.filter g := by
        apply List.filter_congr
        intro x hx
        exact hfg x (List.mem_cons_of_mem _ hx) (fun hxa => hnd.1 (hxa ▸ hx))
      rw [List.filter_cons, List.filter_cons, hfv, hgv]
      simp only [show (true = true) = True from by simp, if_true,
        show (false = true) = False from by simp, if_false,
        List.map_cons, List.sum_cons, hfilter]
    · have ha_ne : a ≠ v := fun haa => hnd.1 (haa ▸ hv')
      have hfga := hfg a (List.mem_cons_self _ _) ha_ne
      have ih' := ih hnd.2 hv' (fun x hx hxv => hfg x (List.mem_cons_of_mem _ hx) hxv)
      rw [List.filter_cons, List.filter_cons, hfga]
      cases hga : g a with
      | true =>
        simp only [show (true = true) = True from by simp, if_true,
          List.map_cons, List.sum_cons]
        omega
      | false =>
        simp only [show (false = true) = False from by simp, if_false]
        exact ih'

theorem pendWeight_settle {G : Graph} {src v : Nat} {dist : DistMap} {d : ℚ}
    (hv : v ∈ candKeys G src) (hlk : lookupD v dist = none) :
    pendWeight G src (dist ++ [(v, d)]) + outDeg G v = pendWeight G src dist := by
  have hnodup : (candKeys G src).Nodup := List.nodup_dedup _
  have hfv : (fun w => (lookupD w dist).isNone) v = true := by simp [hlk]
  have hgv : (fun w => (lookupD w (dist ++ [(v, d)])).isNone) v = false := by
    show (lookupD v (dist ++ [(v, d)])).isNone = false
    rw [lookupD_append_of_none hlk, lookupD_singleton_self]
    rfl
  have hfg : ∀ x ∈ candKeys G src, x ≠ v →
      (fun w => (lookupD w dist).isNone) x =
        (fun w => (lookupD w (dist ++ [(v, d)])).isNone) x := by
    intro x _ hxv
    show (lookupD x dist).isNone = (lookupD x (dist ++ [(v, d)])).isNone
    cases hlx : lookupD x dist with
    | some s => rw [lookupD_append_of_some hlx]
    | none => rw [lookupD_append_of_none hlx, lookupD_singleton_ne hxv]
  have hmain := filter_sum_settle hnodup hv
      (fun w => (lookupD w dist).isNone)
      (fun w => (lookupD w (dist ++ [(v, d)])).isNone)
      (fun w => outDeg G w) hfv hgv hfg
  unfold pendWeight
  dsimp only at hmain
  omega

theorem dijkstraLoop_drains {G : Graph} {src : Nat} {b : ℚ} :
    ∀ fuel dist fringe,
      (∀ d v, (d, v) ∈ fringe → v ∈ candKeys G src) →
      phiM G src dist fringe ≤ fuel →
      (dijkstraLoop G b fuel dist fringe).2 = [] := by
  intro fuel
  induction fuel with
  | zero =>
    intro dist fringe _ hphi
    unfold phiM at hphi
    have hlen : fringe.length = 0 := by omega
    rw [List.length_eq_zero.mp hlen]
    simp [dijkstraLoop]
  | succ n ih =>
    intro dist fringe hcand hphi
    cases hpop : popMin fringe with
    | none =>
      rw [popMin_eq_none_iff.mp hpop]
      simp [dijkstraLoop, popMin]
    | some p =>
      obtain ⟨⟨d, v⟩, rest⟩ := p
      have hperm := popMin_perm hpop
      have hlen : fringe.length = rest.length + 1 := by
        simpa using hperm.length_eq
      have hrest_sub : ∀ y ∈ rest, y ∈ fringe := fun y hy =>
        hperm.mem_iff.mpr (List.mem_cons_of_mem _ hy)
      cases hlk : lookupD v dist with
      | some d0 =>
        simp only [dijkstraLoop, hpop, hlk]
        apply ih
        · intro d' v' h; exact hcand d' v' (hrest_sub _ h)
        · unfold phiM at hphi ⊢; omega
      | none =>
        simp only [dijkstraLoop, hpop, hlk]
        apply ih
        · intro d' v' h
          rcases List.mem_append.mp h with h | h
          · exact hcand d' v' (hrest_sub _ h)
          · rcases mem_relaxations.mp h with ⟨e, he, _, _, _, heq⟩
            have : v' = e.dst := congrArg Prod.snd heq
            rw [this]
            exact mem_candKeys_dst he
        · have hvmem : (d, v) ∈ fringe := hperm.mem_iff.mpr (List.mem_cons_self _ _)
          have hset := pendWeight_settle (d := d) (hcand d v hvmem) hlk
          have hrel := @relaxations_length_le G (dist ++ [(v, d)]) b v d
          unfold phiM at hphi ⊢
          rw [List.length_append]
          omega

/-! ## Characterisation of the settled node set -/

theorem egoDist_inv (G : Graph) (src : Nat) (b : ℚ)
    (Hn : ∀ e ∈ G.edges, 0 ≤ e.cost) :
    DijkInv G src b (egoDist G src b) [] := by
  have hdrain : (dijkstraLoop G b (egoFuel G src) [] [(0, src)]).2 = [] := by
    apply dijkstraLoop_drains
    · intro d v h
      simp only [List.mem_singleton, Prod.mk.injEq] at h
      rw [h.2]
      exact mem_candKeys_src
    · exact le_refl _
  have hinv := dijkstraLoop_preserves Hn (egoFuel G src) [] [(0, src)]
    (dijkInv_init G src b)
  rw [hdrain] at hinv
  exact hinv

theorem egoDist_complete {G : Graph} {src : Nat} {b : ℚ}
    (Hn : ∀ e ∈ G.edges, 0 ≤ e.cost) {w : Nat} {es : List Edge}
    (hp : ValidPath G src w es) :
    pathCost es ≤ b → ∃ dw, (w, dw) ∈ egoDist G src b := by
  have inv := egoDist_inv G src b Hn
  induction hp with
  | nil =>
    intro _
    rcases inv.src_cover with ⟨ds, hds⟩ | hf
    · exact ⟨ds, hds⟩
    · simp at hf
  | @snoc u es' e hp' he hsrc ih =>
    intro hb
    have hce : (0 : ℚ) ≤ e.cost := Hn e he
    have hbsnoc : pathCost es' + e.cost ≤ b := by rwa [pathCost_snoc] at hb
    have hb' : pathCost es' ≤ b := by linarith
    obtain ⟨du, hdu⟩ := ih hb'
    have hmin := inv.min_dist u du hdu es' hp' hb'
    have hble : du + e.cost ≤ b := by linarith
    rcases inv.edge_cover u du hdu e he hsrc hble with ⟨d', hd'⟩ | hfr
    · exact ⟨d', hd'⟩
    · simp at hfr

/-- The node set settled by the bounded traversal is exactly the source
together with the nodes having some within-budget path. -/
theorem egoNodes_mem_iff {G : Graph} {src : Nat} {b : ℚ}
    (Hn : ∀ e ∈ G.edges, 0 ≤ e.cost) (v : Nat) :
    v ∈ egoNodes G src b ↔ v = src ∨ ReachWithin G src v b := by
  have inv := egoDist_inv G src b Hn
  simp only [egoNodes]
  constructor
  · intro h
    rcases mem_keys_iff.mp h with ⟨dv, hdv⟩
    rcases inv.sound_dist v dv hdv with ⟨es, hp, hcost, hbd⟩
    rcases hbd with hbd | ⟨rfl, _⟩
    · exact Or.inr ⟨es, hp, le_of_eq_of_le hcost hbd⟩
    · exact Or.inl rfl
  · rintro (rfl | ⟨es, hp, hb⟩)
    · rcases inv.src_cover with ⟨ds, hds⟩ | hf
      · exact mem_keys_iff.mpr ⟨ds, hds⟩
      · simp at hf
    · obtain ⟨dw, hdw⟩ := egoDist_complete Hn hp hb
      exact mem_keys_iff.mpr ⟨dw, hdw⟩

/-! ## Concrete evaluations of the traversal and pipeline -/

theorem egoNodes_lineG_two : egoNodes lineG 0 2 = [0, 1] := by
  norm_num [egoNodes, egoDist, egoFuel, phiM, pendWeight, candKeys, outDeg,
    dijkstraLoop, popMin, relaxations, lookupD, lineG, List.dedup, List.pwFilter,
    List.filter, List.filterMap]

theorem egoNodes_lineG_one : egoNodes lineG 0 1 = [0, 1] := by
  norm_num [egoNodes, egoDist, egoFuel, phiM, pendWeight, candKeys, outDeg,
    dijkstraLoop, popMin, relaxations, lookupD, lineG, List.dedup, List.pwFilter,
    List.filter, List.filterMap]

theorem egoNodes_zeroCostG_zero : egoNodes zeroCostG 0 0 = [0, 1] := by
  norm_num [egoNodes, egoDist, egoFuel, phiM, pendWeight, candKeys, outDeg,
    dijkstraLoop, popMin, relaxations, lookupD, zeroCostG, List.dedup, List.pwFilter,
    List.filter, List.filterMap]

theorem scores_segG_failFirst :
    calculate_connectivity_scores trivEnv segG [(0, 0), (2, 0)] [(1, 0)] 5 failOracle none
      = some [0, 1] := by
  norm_num [calculate_connectivity_scores, scoresLoop, zoneResult, zoneScore, countPOIs,
    calculate_isochrone, calcIsochroneBody, trivEnv, nearestNode, dist2, failOracle,
    egoNodes, egoDist, egoFuel, phiM, pendWeight, candKeys, outDeg, dijkstraLoop, popMin,
    relaxations, lookupD, segG, convexHullPts, sortPts, insertPt, lexLe, monotoneChain,
    chainPush, ptIntersects, onSegment, cross, List.dedup, List.pwFilter, List.filter,
    List.filterMap, List.isEmpty]

theorem scores_segG_noFail :
    calculate_connectivity_scores trivEnv segG [(0, 0), (2, 0)] [(1, 0)] 5 noFail none
      = some [1, 1] := by
  norm_num [calculate_connectivity_scores, scoresLoop, zoneResult, zoneScore, countPOIs,
    calculate_isochrone, calcIsochroneBody, trivEnv, nearestNode, dist2, noFail,
    egoNodes, egoDist, egoFuel, phiM, pendWeight, candKeys, outDeg, dijkstraLoop, popMin,
    relaxations, lookupD, segG, convexHullPts, sortPts, insertPt, lexLe, monotoneChain,
    chainPush, ptIntersects, onSegment, cross, List.dedup, List.pwFilter, List.filter,
    List.filterMap, List.isEmpty]

theorem zoneScore_segG_poi : zoneScore trivEnv segG [(1, 0)] 5 (0, 0) = 1 := by
  norm_num [zoneScore, countPOIs,
    calculate_isochrone, calcIsochroneBody, trivEnv, nearestNode, dist2,
    egoNodes, egoDist, egoFuel, phiM, pendWeight, candKeys, outDeg, dijkstraLoop, popMin,
    relaxations, lookupD, segG, convexHullPts, sortPts, insertPt, lexLe, monotoneChain,
    chainPush, ptIntersects, onSegment, cross, List.dedup, List.pwFilter, List.filter,
    List.filterMap, List.isEmpty]

theorem scoresCompute_argsNoPoi : scoresCompute argsNoPoi = some [0] := by
  norm_num [scoresCompute, argsNoPoi, calculate_connectivity_scores, scoresLoop, zoneResult,
    zoneScore, countPOIs,
    calculate_isochrone, calcIsochroneBody, trivEnv, nearestNode, dist2,
    egoNodes, egoDist, egoFuel, phiM, pendWeight, candKeys, outDeg, dijkstraLoop, popMin,
    relaxations, lookupD, segG, convexHullPts, sortPts, insertPt, lexLe, monotoneChain,
    chainPush, ptIntersects, onSegment, cross, List.dedup, List.pwFilter, List.filter,
    List.filterMap, List.isEmpty]

theorem scoresCompute_argsWithPoi : scoresCompute argsWithPoi = some [1] := by
  norm_num [scoresCompute, argsWithPoi, calculate_connectivity_scores, scoresLoop, zoneResult,
    zoneScore, countPOIs,
    calculate_isochrone, calcIsochroneBody, trivEnv, nearestNode, dist2,
    egoNodes, egoDist, egoFuel, phiM, pendWeight, candKeys, outDeg, dijkstraLoop, popMin,
    relaxations, lookupD, segG, convexHullPts, sortPts, insertPt, lexLe, monotoneChain,
    chainPush, ptIntersects, onSegment, cross, List.dedup, List.pwFilter, List.filter,
    List.filterMap, List.isEmpty]

/-! ## The scoring loop, elementwise -/

theorem scoresLoop_length (env : Env) (G : Graph) (pois : List Pt) (maxDist : ℚ)
    (failAt : Nat → Option String) :
    ∀ zs n, (scoresLoop env G pois maxDist failAt n zs).length = zs.length := by
  intro zs
  induction zs with
  | nil => intro n; rfl
  | cons z zs ih => intro n; simp [scoresLoop, ih]

theorem scoresLoop_get (env : Env) (G : Graph) (pois : List Pt) (maxDist : ℚ)
    (failAt : Nat → Option String) :
    ∀ zs n j, (scoresLoop env G pois maxDist failAt n zs)[j]? =
      (zs[j]?).map (fun z => zoneResult env G pois maxDist failAt (n + j) z) := by
  intro zs
  induction zs with
  | nil => intro n j; simp [scoresLoop]
  | cons z zs ih =>
    intro n j
    cases j with
    | zero => simp [scoresLoop]
    | succ j =>
      simp only [scoresLoop, List.getElem?_cons_succ]
      rw [ih (n + 1) j]
      have harith : n + 1 + j = n + (j + 1) := by omega
      rw [harith]

theorem countPOIs_le (iso : Option Geom) (pois : List Pt) :
    countPOIs iso pois ≤ pois.length := by
  cases iso with
  | none => exact Nat.zero_le _
  | some g => exact List.length_filter_le _ _

theorem scoresLoop_mem_le (env : Env) (G : Graph) (pois : List Pt) (maxDist : ℚ)
    (failAt : Nat → Option String) :
    ∀ zs n s, s ∈ scoresLoop env G pois maxDist failAt n zs → s ≤ pois.length := by
  intro zs
  induction zs with
  | nil => intro n s hs; simp [scoresLoop] at hs
  | cons z zs ih =>
    intro n s hs
    rcases List.mem_cons.mp hs with rfl | hs'
    · unfold zoneResult
      cases failAt n with
      | some e => exact Nat.zero_le _
      | none => exact countPOIs_le _ _
    · exact ih (n + 1) s hs'

/-! ## Normalisation lemmas -/

theorem le_seriesMaxNat : ∀ {xs : List Nat} {x : Nat}, x ∈ xs → x ≤ seriesMaxNat xs := by
  intro xs
  induction xs with
  | nil => intro x h; cases h
  | cons a as ih =>
    intro x h
    rcases List.mem_cons.mp h with rfl | h'
    · exact le_max_left _ _
    · exact le_trans (ih h') (le_max_right _ _)

theorem validPath_nil_imp {G : Graph} {src v : Nat} {es : List Edge}
    (h : ValidPath G src v es) : es = [] → v = src := by
  induction h with
  | nil => intro _; rfl
  | snoc hp he hsrc ih => intro hes; simp at hes

/-! ## Cache lemmas -/

theorem lookupA_cons_self {κ ν : Type} [DecidableEq κ] (k : κ) (v : ν)
    (c : List (κ × ν)) : lookupA k ((k, v) :: c) = some v := by
  simp [lookupA]

/-! ## Claim theorems -/

/-- C1: For every graph with non-negative edge costs, every source node in
the graph, and every non-negative budget, the reachable set computed by the
bounded traversal (the ego-graph of `calculate_isochrone`) is exactly the
set of nodes whose shortest cumulative-cost path from the source is at most
the budget: a node is settled iff it has some path of cumulative cost within
the budget (equivalently, iff its shortest-path cost is within the budget). -/
theorem C1_ego_ball_exact (G : Graph) (src : Nat) (b : ℚ)
    (hsrc : src ∈ G.nodes.map Prod.fst)
    (Hn : ∀ e ∈ G.edges, 0 ≤ e.cost) (hb : 0 ≤ b) (v : Nat) :
    v ∈ egoNodes G src b ↔ ReachWithin G src v b := by
  rw [egoNodes_mem_iff Hn v]
  constructor
  · rintro (rfl | h)
    · exact ⟨[], ValidPath.nil, by simpa [pathCost] using hb⟩
    · exact h
  · intro h
    exact Or.inr h

/-- Witness for C1: on the spec's line graph from source 0 with budget 2,
the hypotheses hold and the characterisation applies at node 1. -/
theorem C1_witness :
    (0 ∈ lineG.nodes.map Prod.fst) ∧ (∀ e ∈ lineG.edges, 0 ≤ e.cost) ∧ ((0 : ℚ) ≤ 2) ∧
      (1 ∈ egoNodes lineG 0 2 ↔ ReachWithin lineG 0 1 2) :=
  ⟨by decide, by decide, by decide,
    C1_ego_ball_exact lineG 0 2 (by decide) (by decide) (by decide) 1⟩

/-- C4 counterexample: on the claimed 4-node line graph with edge costs
1, 2, 1 and budget 2 from node 0, node 2 is NOT in the reachable set (its
shortest cumulative cost is 1 + 2 = 3 > 2), so the claimed set {0, 1, 2} is
wrong. -/
theorem C4_counterexample : 2 ∉ egoNodes lineG 0 2 := by
  rw [egoNodes_lineG_two]
  decide

/-- C4 (amended): on the 4-node line graph with consecutive edge costs
1, 2, 1, the bounded traversal from node 0 with budget 2 yields exactly
{0, 1}: nodes 2 and 3 are excluded (cumulative costs 3 and 4 exceed 2). -/
theorem C4_line_graph_budget_two : egoNodes lineG 0 2 = [0, 1] :=
  egoNodes_lineG_two

/-- C5: For every graph (with the data model's non-negative edge costs),
every source node and budgets b1 ≤ b2, the traversal's node set at b1 is
contained in the node set at b2. -/
theorem C5_budget_monotone (G : Graph) (src : Nat) (b1 b2 : ℚ)
    (Hn : ∀ e ∈ G.edges, 0 ≤ e.cost) (hb : b1 ≤ b2) :
    ∀ v, v ∈ egoNodes G src b1 → v ∈ egoNodes G src b2 := by
  intro v hv
  rcases (egoNodes_mem_iff Hn v).mp hv with rfl | ⟨es, hp, hc⟩
  · exact (egoNodes_mem_iff Hn v).mpr (Or.inl rfl)
  · exact (egoNodes_mem_iff Hn v).mpr (Or.inr ⟨es, hp, le_trans hc hb⟩)

/-- Witness for C5: on the line graph, node 1 is reached at budget 1 and
monotonicity places it in the budget-2 set. -/
theorem C5_witness :
    (∀ e ∈ lineG.edges, 0 ≤ e.cost) ∧ ((1 : ℚ) ≤ 2) ∧ 1 ∈ egoNodes lineG 0 1 ∧
      1 ∈ egoNodes lineG 0 2 := by
  refine ⟨by decide, by decide, ?_, ?_⟩
  · rw [egoNodes_lineG_one]; decide
  · exact C5_budget_monotone lineG 0 1 2 (by decide) (by decide) 1
      (by rw [egoNodes_lineG_one]; decide)

/-- C7 counterexample: on a graph with a zero-cost edge 0 → 1, budget 0
(which is ≤ 0) settles both nodes — the relaxation 0 + 0 ≤ 0 passes the
cutoff — so the result is not the singleton {0}. -/
theorem C7_counterexample :
    1 ∈ egoNodes zeroCostG 0 0 ∧ egoNodes zeroCostG 0 0 ≠ [0] := by
  rw [egoNodes_zeroCostG_zero]
  exact ⟨by decide, by decide⟩

/-- C7 (amended): for every graph with strictly positive edge costs and
every source, a budget ≤ 0 yields the singleton reachable set containing
only the source node. -/
theorem C7_nonpositive_budget_singleton (G : Graph) (src : Nat) (b : ℚ)
    (Hp : ∀ e ∈ G.edges, 0 < e.cost) (hb : b ≤ 0) (v : Nat) :
    v ∈ egoNodes G src b ↔ v = src := by
  have Hn : ∀ e ∈ G.edges, 0 ≤ e.cost := fun e he => le_of_lt (Hp e he)
  rw [egoNodes_mem_iff Hn v]
  constructor
  · rintro (rfl | ⟨es, hp, hc⟩)
    · rfl
    · by_cases hes : es = []
      · exact validPath_nil_imp hp hes
      · have hpos := pathCost_pos_of_ne_nil Hp hp hes
        linarith
  · rintro rfl
    exact Or.inl rfl

/-- Witness for C7 (amended): the line graph has positive costs, and with
budget -1 node 1 is excluded while node 0 (the source) is included. -/
theorem C7_witness :
    (∀ e ∈ lineG.edges, 0 < e.cost) ∧ ((-1 : ℚ) ≤ 0) ∧
      (1 ∈ egoNodes lineG 0 (-1) ↔ 1 = 0) ∧ (0 ∈ egoNodes lineG 0 (-1) ↔ 0 = 0) :=
  ⟨by decide, by decide,
    C7_nonpositive_budget_singleton lineG 0 (-1) (by decide) (by decide) 1,
    C7_nonpositive_budget_singleton lineG 0 (-1) (by decide) (by decide) 0⟩

/-- C2 counterexample: when every raw score is 0 the maximum is 0 and the
pandas division `raw / max` produces NaN for every zone, not 0: the claimed
"all normalized scores are 0 (not NaN/undefined)" safeguard is absent from
the code. -/
theorem C2_counterexample :
    punteggioNorm [0, 0] = [PFloat.nan, PFloat.nan] ∧ PFloat.nan ≠ PFloat.val 0 := by
  constructor
  · simp [punteggioNorm, seriesMaxNat, pdDiv]
  · decide

/-- C2 (amended): when the maximum raw score is positive, each normalized
score equals raw / max, lies in [0, 1], the maximum maps to 1 and a zero
raw score maps to 0; when the maximum raw score is 0, every normalized
score is NaN (0/0), not 0. -/
theorem C2_normalisation (scores : List Nat) :
    (seriesMaxNat scores = 0 → ∀ y ∈ punteggioNorm scores, y = PFloat.nan) ∧
    (0 < seriesMaxNat scores →
      (∀ j : Nat, (punteggioNorm scores)[j]? =
        (scores[j]?).map (fun (x : Nat) => PFloat.val ((x : ℚ) / (seriesMaxNat scores : ℚ)))) ∧
      (∀ x ∈ scores, 0 ≤ (x : ℚ) / (seriesMaxNat scores : ℚ) ∧
        (x : ℚ) / (seriesMaxNat scores : ℚ) ≤ 1) ∧
      (∀ x ∈ scores, x = seriesMaxNat scores → (x : ℚ) / (seriesMaxNat scores : ℚ) = 1) ∧
      (∀ x ∈ scores, x = 0 → (x : ℚ) / (seriesMaxNat scores : ℚ) = 0)) := by
  constructor
  · intro hmax y hy
    simp only [punteggioNorm] at hy
    rcases List.mem_map.mp hy with ⟨x, hx, rfl⟩
    have hx0 : x = 0 := Nat.le_zero.mp (hmax ▸ le_seriesMaxNat hx)
    subst hx0
    simp [pdDiv, hmax]
  · intro hpos
    have hm0 : ((seriesMaxNat scores : ℚ)) ≠ 0 :=
      Nat.cast_ne_zero.mpr (Nat.pos_iff_ne_zero.mp hpos)
    have hmq : (0 : ℚ) < (seriesMaxNat scores : ℚ) := by exact_mod_cast hpos
    refine ⟨?_, ?_, ?_, ?_⟩
    · intro j
      simp only [punteggioNorm, List.getElem?_map]
      cases scores[j]? with
      | none => rfl
      | some x => simp [pdDiv, hm0]
    · intro x hx
      constructor
      · exact div_nonneg (Nat.cast_nonneg _) (le_of_lt hmq)
      · rw [div_le_one hmq]
        exact_mod_cast le_seriesMaxNat hx
    · intro x _ hxe
      rw [hxe]
      exact div_self hm0
    · intro x _ hx0
      rw [hx0]
      simp

/-- Witness for C2: at raw scores [2, 0] the maximum is positive and each
normalized score is raw / 2; at raw scores [0, 0] the maximum is zero and
both normalized scores are NaN. -/
theorem C2_witness :
    (0 < seriesMaxNat [2, 0]) ∧
      (∀ j : Nat, (punteggioNorm [2, 0])[j]? =
        (([2, 0] : List Nat)[j]?).map
          (fun (x : Nat) => PFloat.val ((x : ℚ) / (seriesMaxNat [2, 0] : ℚ)))) ∧
      (seriesMaxNat [0, 0] = 0) ∧ (∀ y ∈ punteggioNorm [0, 0], y = PFloat.nan) :=
  ⟨by decide, ((C2_normalisation [2, 0]).2 (by decide)).1, by decide,
    (C2_normalisation [0, 0]).1 (by decide)⟩

/-- C3: whenever the scoring batch runs (the shared parse succeeded), it
returns exactly one score per input zone in input order, and zone number j's
score depends only on zone j: a per-zone exception gives that zone score 0
without aborting the batch or affecting other zones. -/
theorem C3_per_zone_isolation (env : Env) (G : Graph) (zones pois : List Pt)
    (maxDist : ℚ) (failAt : Nat → Option String) (scores : List Nat)
    (h : calculate_connectivity_scores env G zones pois maxDist failAt none = some scores) :
    scores.length = zones.length ∧
      ∀ j, scores[j]? = (zones[j]?).map (fun z => zoneResult env G pois maxDist failAt j z) := by
  simp only [calculate_connectivity_scores] at h
  injection h with h
  subst h
  constructor
  · exact scoresLoop_length env G pois maxDist failAt zones 0
  · intro j
    have hg := scoresLoop_get env G pois maxDist failAt zones 0 j
    simpa using hg

/-- Witness for C3: on the two-zone instance where zone 0's scoring raises,
the batch returns [0, 1] — zone 0 degraded to 0, zone 1 unaffected. -/
theorem C3_witness :
    ([0, 1] : List Nat).length = ([((0 : ℚ), (0 : ℚ)), ((2 : ℚ), (0 : ℚ))] : List Pt).length ∧
      ∀ j, ([0, 1] : List Nat)[j]? =
        (([((0 : ℚ), (0 : ℚ)), ((2 : ℚ), (0 : ℚ))] : List Pt)[j]?).map
          (fun z => zoneResult trivEnv segG [((1 : ℚ), (0 : ℚ))] 5 failOracle j z) :=
  C3_per_zone_isolation trivEnv segG _ _ 5 failOracle [0, 1] scores_segG_failFirst

/-- C6 counterexample: a degenerate (zero-area) segment region does NOT
always yield count 0: a POI lying exactly on the segment intersects it, so
the pipeline scores 1 for a collinear two-node reachable set with a POI on
the segment. -/
theorem C6_counterexample :
    zoneScore trivEnv segG [(1, 0)] 5 (0, 0) = 1 ∧ (1 : Nat) ≠ 0 :=
  ⟨zoneScore_segG_poi, by decide⟩

/-- C6 (amended): for a null (None) region the count is 0; for an empty or
zero-area (point or segment) region the count over a POI collection none of
whose points lies exactly on the degenerate geometry is 0; and no error is
raised in any of these cases (the count is total). -/
theorem C6_degenerate_region_count (iso : Option Geom) (pois : List Pt)
    (h : iso = none ∨
      ∃ g, iso = some g ∧ zeroAreaGeom g ∧ ∀ q ∈ pois, ptIntersects q g = false) :
    countPOIs iso pois = 0 := by
  rcases h with rfl | ⟨g, rfl, _, hq⟩
  · rfl
  · have hfil : pois.filter (fun p => ptIntersects p g) = [] :=
      List.filter_eq_nil_iff.mpr (fun a ha => by simp [hq a ha])
    simp [countPOIs, hfil]

/-- Witness for C6 (amended): a point region with a non-colocated POI counts
zero. -/
theorem C6_witness :
    countPOIs (some (Geom.point (0, 0))) [((1 : ℚ), (1 : ℚ))] = 0 :=
  C6_degenerate_region_count _ _
    (Or.inr ⟨Geom.point (0, 0), rfl, trivial, fun q hq => by
      rcases List.mem_singleton.mp hq with rfl
      decide⟩)

/-- C8 counterexample: `st.cache_data` keys `calculate_connectivity_scores`
on `max_distance` alone (the other parameters are underscore-prefixed and
excluded from hashing), so after computing scores with an empty POI
selection, a call with a different POI selection but the same budget hits
the same key and returns the stale value [0] although its own computation
yields [1]: a parameter change does NOT always yield a different cache key. -/
theorem C8_counterexample :
    scoresCacheKey argsNoPoi = scoresCacheKey argsWithPoi ∧
    argsNoPoi.poiJson ≠ argsWithPoi.poiJson ∧
    (cachedCall scoresCacheKey scoresCompute
        ((cachedCall scoresCacheKey scoresCompute [] argsNoPoi).2.1) argsWithPoi).1
      = some [0] ∧
    scoresCompute argsWithPoi = some [1] ∧
    (some [0] : Option (List Nat)) ≠ some [1] := by
  refine ⟨rfl, by decide, ?_, scoresCompute_argsWithPoi, by decide⟩
  have hkey1 : scoresCacheKey argsNoPoi = (5 : ℚ) := rfl
  have hkey2 : scoresCacheKey argsWithPoi = (5 : ℚ) := rfl
  have h1 : cachedCall scoresCacheKey scoresCompute [] argsNoPoi =
      (some [0], [(5, some [0])], true) := by
    simp only [cachedCall, lookupA, hkey1, scoresCompute_argsNoPoi]
  rw [h1]
  simp [cachedCall, lookupA, hkey2]

/-- C8 (amended): the memoisation itself is correct — a first call computes,
stores and returns the computed value, a repeat call with an equal key
returns the stored value without recomputation — but the scores-cache key
consists of `max_distance` alone, so two calls agree on the key iff they
agree on `max_distance` regardless of the service selection; only the
amenities cache keys on (place, tags), so a service change refreshes the
POI download but not a memoised score list. -/
theorem C8_cache_behaviour (a : ScoresArgs) (cache : List (ℚ × Option (List Nat))) :
    (lookupA (scoresCacheKey a) cache = none →
      cachedCall scoresCacheKey scoresCompute cache a =
        (scoresCompute a, (scoresCacheKey a, scoresCompute a) :: cache, true)) ∧
    (∀ v, lookupA (scoresCacheKey a) cache = some v →
      cachedCall scoresCacheKey scoresCompute cache a = (v, cache, false)) ∧
    ((cachedCall scoresCacheKey scoresCompute
        ((cachedCall scoresCacheKey scoresCompute cache a).2.1) a).1 =
      (cachedCall scoresCacheKey scoresCompute cache a).1 ∧
     (cachedCall scoresCacheKey scoresCompute
        ((cachedCall scoresCacheKey scoresCompute cache a).2.1) a).2.2 = false) ∧
    (∀ a' : ScoresArgs, scoresCacheKey a' = scoresCacheKey a ↔
      a'.maxDistance = a.maxDistance) ∧
    (∀ t1 t2 : AmenArgs, t1.tags ≠ t2.tags → amenitiesCacheKey t1 ≠ amenitiesCacheKey t2) := by
  refine ⟨?_, ?_, ?_, ?_, ?_⟩
  · intro h
    simp [cachedCall, h]
  · intro v h
    simp [cachedCall, h]
  · cases h : lookupA (scoresCacheKey a) cache with
    | some v => constructor <;> simp [cachedCall, h]
    | none => constructor <;> simp [cachedCall, h, lookupA_cons_self]
  · intro a'
    exact Iff.rfl
  · intro t1 t2 ht h
    exact ht (congrArg Prod.snd h)

/-- Witness for C8 (amended): on the empty cache the first call for
`argsNoPoi` misses, computes and stores under its key. -/
theorem C8_witness :
    (lookupA (scoresCacheKey argsNoPoi) ([] : List (ℚ × Option (List Nat))) = none) ∧
      cachedCall scoresCacheKey scoresCompute [] argsNoPoi =
        (scoresCompute argsNoPoi,
          (scoresCacheKey argsNoPoi, scoresCompute argsNoPoi) :: [], true) :=
  ⟨rfl, (C8_cache_behaviour argsNoPoi []).1 rfl⟩

/-- C9: `calculate_isochrone` is total at its public interface: for every
projection environment, graph, centre point and budget, either the body
succeeds and the function returns that region, or the body fails with some
internal error (projection, nearest-node lookup, edgeless traversal) and the
function returns `None`; no failure propagates to the caller. -/
theorem C9_isochrone_total (env : Env) (G : Graph) (center : Pt) (maxDist : ℚ) :
    (∃ g, calcIsochroneBody env G center maxDist = .ok g ∧
        calculate_isochrone env G center maxDist = some g) ∨
      (∃ e, calcIsochroneBody env G center maxDist = .error e ∧
        calculate_isochrone env G center maxDist = none) := by
  cases h : calcIsochroneBody env G center maxDist with
  | ok g => exact Or.inl ⟨g, rfl, by simp [calculate_isochrone, h]⟩
  | error e => exact Or.inr ⟨e, rfl, by simp [calculate_isochrone, h]⟩

/-- C10: every element of a successfully returned score list is a natural
number bounded by the number of supplied POIs: each score is either 0 or the
size of a filtered subcollection of the POI list. -/
theorem C10_scores_bounded (env : Env) (G : Graph) (zones pois : List Pt)
    (maxDist : ℚ) (failAt : Nat → Option String) (parseFail : Option String)
    (scores : List Nat)
    (h : calculate_connectivity_scores env G zones pois maxDist failAt parseFail
      = some scores) :
    ∀ s ∈ scores, s ≤ pois.length := by
  cases parseFail with
  | some e => simp [calculate_connectivity_scores] at h
  | none =>
    simp only [calculate_connectivity_scores] at h
    injection h with h
    subst h
    intro s hs
    exact scoresLoop_mem_le env G pois maxDist failAt zones 0 s hs

/-- Witness for C10: the two-zone instance returns [1, 1] and both scores
are bounded by the single supplied POI. -/
theorem C10_witness :
    (calculate_connectivity_scores trivEnv segG [(0, 0), (2, 0)] [(1, 0)] 5 noFail none
      = some [1, 1]) ∧
      ∀ s ∈ ([1, 1] : List Nat), s ≤ ([((1 : ℚ), (0 : ℚ))] : List Pt).length :=
  ⟨scores_segG_noFail,
    C10_scores_bounded trivEnv segG [(0, 0), (2, 0)] [(1, 0)] 5 noFail none [1, 1]
      scores_segG_noFail⟩

end MilanoApp
